import Mathlib

/-!
Shallow embedding of the timeline transformation engine of
`python-worker/timeline_manager.py` and of the stage ordering of
`python-worker/pipeline.py`.  Times are modelled as rationals; Python lists
become Lean lists; the mutable cut collection of `TimelineManager` becomes a
field of an immutable record, with `add_cut` returning the post-call state
together with the error it raises (the Python method raises before any
mutation, so the post-call state on failure is the unchanged manager).
-/

/-- `TimeInterval` of timeline_manager.py: a start/end pair of seconds. -/
structure TimeInterval where
  start : ℚ
  «end» : ℚ
deriving DecidableEq

/-- `TimeInterval.duration`: `end - start`. -/
def TimeInterval.duration (i : TimeInterval) : ℚ :=
  i.«end» - i.start

/-- `TimeInterval.contains`: closed-interval test `start <= t <= end`. -/
def TimeInterval.contains (i : TimeInterval) (t : ℚ) : Prop :=
  i.start ≤ t ∧ t ≤ i.«end»

instance (i : TimeInterval) (t : ℚ) : Decidable (i.contains t) :=
  inferInstanceAs (Decidable (i.start ≤ t ∧ t ≤ i.«end»))

/-- `TimeInterval.overlaps`: strict overlap test
`self.start < other.end and other.start < self.end`. -/
def TimeInterval.overlaps (a b : TimeInterval) : Prop :=
  a.start < b.«end» ∧ b.start < a.«end»

instance (a b : TimeInterval) : Decidable (a.overlaps b) :=
  inferInstanceAs (Decidable (a.start < b.«end» ∧ b.start < a.«end»))

/-- `TimelineManager`: the original duration plus the registered
(unmerged) cut collection `removed_intervals`.  The `_sorted` dirty flag of
the Python class is a cache detail with no observable effect: every public
query sorts on demand, which the embedding performs inside the merge. -/
structure TimelineManager where
  original_duration : ℚ
  removed_intervals : List TimeInterval
deriving DecidableEq

/-- Insert an interval into a list sorted by `start`, after any element with
an equal or smaller `start` (so the sort below is stable, like Python's). -/
def insertByStart (x : TimeInterval) : List TimeInterval → List TimeInterval
  | [] => [x]
  | y :: ys =>
    if x.start ≤ y.start then x :: y :: ys else y :: insertByStart x ys

/-- `_ensure_sorted`: the cut collection sorted by `start` (stable sort,
matching `list.sort(key=lambda x: x.start)`). -/
def sortCuts : List TimeInterval → List TimeInterval
  | [] => []
  | x :: xs => insertByStart x (sortCuts xs)

/-- The fold of `_merge_overlapping_cuts` over the sorted tail: merge the
running interval with the next one whenever they overlap or exactly touch
(`current.end == interval.start`), taking the max of the ends. -/
def mergeLoop (current : TimeInterval) : List TimeInterval → List TimeInterval
  | [] => [current]
  | i :: rest =>
    if current.overlaps i ∨ current.«end» = i.start then
      mergeLoop ⟨current.start, max current.«end» i.«end»⟩ rest
    else
      current :: mergeLoop i rest

/-- `TimelineManager._merge_overlapping_cuts`: sort the registered cuts by
start, then fold overlapping/adjacent cuts into merged intervals. -/
def TimelineManager._merge_overlapping_cuts (tm : TimelineManager) : List TimeInterval :=
  match sortCuts tm.removed_intervals with
  | [] => []
  | c :: rest => mergeLoop c rest

/-- `sum(cut.duration for cut in cuts)`. -/
def sumDurations (l : List TimeInterval) : ℚ :=
  (l.map TimeInterval.duration).sum

/-- `TimelineManager.get_edited_duration`:
`original_duration - sum(cut.duration for cut in merged_cuts)`. -/
def TimelineManager.get_edited_duration (tm : TimelineManager) : ℚ :=
  tm.original_duration - sumDurations tm._merge_overlapping_cuts

/-- The accumulation loop of `map_timestamp`: walk the merged cuts keeping a
running `removed_before`; a cut entirely at or before `t` adds its duration;
a cut strictly containing `t` adds `t - cut.start` and returns
`cut.start - removed_before`; otherwise the loop breaks and returns
`t - removed_before`. -/
def mapLoop (t removed_before : ℚ) : List TimeInterval → ℚ
  | [] => t - removed_before
  | cut :: rest =>
    if cut.«end» ≤ t then
      mapLoop t (removed_before + cut.duration) rest
    else if cut.start < t ∧ t < cut.«end» then
      cut.start - (removed_before + (t - cut.start))
    else
      t - removed_before

/-- `TimelineManager.map_timestamp`: clamp below 0 to 0, above the original
duration to the edited duration, otherwise run the merged-cut loop. -/
def TimelineManager.map_timestamp (tm : TimelineManager) (t : ℚ) : ℚ :=
  if t < 0 then 0
  else if t > tm.original_duration then tm.get_edited_duration
  else mapLoop t 0 tm._merge_overlapping_cuts

/-- The walk of `get_kept_segments` over the merged cuts: emit
`(current_time, cut.start)` whenever there is a gap, advance `current_time`
to `cut.end`, and close with `(current_time, D)` when time remains. -/
def keptLoop (D current_time : ℚ) : List TimeInterval → List (ℚ × ℚ)
  | [] => if current_time < D then [(current_time, D)] else []
  | cut :: rest =>
    if current_time < cut.start then
      (current_time, cut.start) :: keptLoop D cut.«end» rest
    else
      keptLoop D cut.«end» rest

/-- `TimelineManager.get_kept_segments`: `[(0, D)]` with no merged cuts,
otherwise the gap walk over the merged cuts. -/
def TimelineManager.get_kept_segments (tm : TimelineManager) : List (ℚ × ℚ) :=
  match tm._merge_overlapping_cuts with
  | [] => [(0, tm.original_duration)]
  | c :: rest => keptLoop tm.original_duration 0 (c :: rest)

/-- `TimelineManager.validate_timestamp`: false as soon as a merged cut
contains `t` (closed bounds), else the range test `0 <= t <= D`. -/
def TimelineManager.validate_timestamp (tm : TimelineManager) (t : ℚ) : Bool :=
  if tm._merge_overlapping_cuts.any (fun cut => decide (cut.contains t)) then
    false
  else
    decide (0 ≤ t ∧ t ≤ tm.original_duration)

/-- A subtitle dict: `start`/`end` plus the rest of the payload (text and
any other fields), abstracted as one value of an arbitrary type so that
"all other fields unchanged" is expressible. -/
structure Subtitle (α : Type) where
  start : ℚ
  «end» : ℚ
  payload : α
deriving DecidableEq

/-- `adjust_subtitle_timestamps` of timeline_manager.py: skip a subtitle
whose both endpoints fail `validate_timestamp`; otherwise map both endpoints
and emit a copy with the new times when `new_end > new_start`. -/
def adjust_subtitle_timestamps {α : Type} (subtitles : List (Subtitle α))
    (timeline : TimelineManager) : List (Subtitle α) :=
  match subtitles with
  | [] => []
  | s :: rest =>
    if timeline.validate_timestamp s.start = false ∧
        timeline.validate_timestamp s.«end» = false then
      adjust_subtitle_timestamps rest timeline
    else
      let new_start := timeline.map_timestamp s.start
      let new_end := timeline.map_timestamp s.«end»
      if new_start < new_end then
        { s with start := new_start, «end» := new_end } ::
          adjust_subtitle_timestamps rest timeline
      else
        adjust_subtitle_timestamps rest timeline

/-- The two `ValueError` cases of `add_cut`. -/
inductive CutError where
  | out_of_bounds
  | invalid_range
deriving DecidableEq

/-- `TimelineManager.add_cut`: raise `out_of_bounds` when `start < 0` or
`end > original_duration`, `invalid_range` when `start >= end`, else append
the interval.  The first component is the post-call state: the Python method
raises before mutating, so on failure it is the unchanged manager. -/
def TimelineManager.add_cut (tm : TimelineManager) (start «end» : ℚ) :
    TimelineManager × Option CutError :=
  if start < 0 ∨ «end» > tm.original_duration then
    (tm, some CutError.out_of_bounds)
  else if start ≥ «end» then
    (tm, some CutError.invalid_range)
  else
    ({ tm with removed_intervals := tm.removed_intervals ++ [TimeInterval.mk start «end»] },
      none)

/-- `total_cuts` of `get_summary`: the registered (unmerged) cut count. -/
def TimelineManager.total_cuts (tm : TimelineManager) : Nat :=
  tm.removed_intervals.length

/-- Reachable `TimelineManager` states: the constructor requires a positive
duration and `add_cut` admits exactly the cuts with
`0 <= start < end <= original_duration`. -/
def TimelineManager.WF (tm : TimelineManager) : Prop :=
  0 < tm.original_duration ∧
    ∀ c ∈ tm.removed_intervals,
      0 ≤ c.start ∧ c.start < c.«end» ∧ c.«end» ≤ tm.original_duration

instance (tm : TimelineManager) : Decidable tm.WF :=
  inferInstanceAs (Decidable (0 < tm.original_duration ∧
    ∀ c ∈ tm.removed_intervals,
      0 ≤ c.start ∧ c.start < c.«end» ∧ c.«end» ≤ tm.original_duration))

/-- Two merged cuts in order: strictly separated (no overlap, no touching). -/
def separated (a b : TimeInterval) : Prop :=
  a.«end» < b.start

/-- Total merged-cut duration ending at or before `t`: the `removed_before`
accumulator of `map_timestamp` for a timestamp outside every cut. -/
def removed_before (t : ℚ) (l : List TimeInterval) : ℚ :=
  sumDurations (l.filter fun c => decide (c.«end» ≤ t))

/-- Total duration of kept segments. -/
def sumSegments (l : List (ℚ × ℚ)) : ℚ :=
  (l.map fun p => p.2 - p.1).sum

/-! Stage ordering of `ProcessingPipeline.execute` (pipeline.py).  The edit
plan keeps the fields `execute` branches on; the per-stage backend calls are
opaque, so a run is modelled as the sequence of stage events it performs,
together with the timeline manager and subtitle list it ends with. -/

/-- The parts of `AIEditingScript` that `ProcessingPipeline.execute`
branches on: cut list, subtitle segments, highlights, transitions and
dynamic audio segments (the latter three only via emptiness). -/
structure EditPlan (α : Type) where
  cuts : List (ℚ × ℚ)
  subtitles : List (Subtitle α)
  highlights : List Unit
  transitions : List Unit
  audio_segments : List Unit

/-- One observable step of `ProcessingPipeline.execute`, in program order. -/
inductive StageEvent where
  | audio_normalize
  | dynamic_audio
  | register_cut (s e : ℚ) (ok : Bool)
  | jump_cuts
  | resync
  | highlight_effects
  | apply_transitions
  | color_grade
  | aspect_conversion
  | add_subtitles
  | finalize
deriving DecidableEq

/-- The cut registration loop of step 3: `add_cut` each plan cut in order,
skipping (with `ok = false`) the ones that raise, as the `try/except` does. -/
def register_cuts (tm : TimelineManager) :
    List (ℚ × ℚ) → TimelineManager × List StageEvent
  | [] => (tm, [])
  | c :: rest =>
    let step := tm.add_cut c.1 c.2
    let r := register_cuts step.1 rest
    (r.1, StageEvent.register_cut c.1 c.2 step.2.isNone :: r.2)

/-- The post-resync rebuild of `script.subtitles.segments`: keep the
adjusted subtitles with `end > 0`, clamping `start` to `>= 0` and `end` to
`>= 0.01`. -/
def clamp_subtitles {α : Type} (subs : List (Subtitle α)) : List (Subtitle α) :=
  (subs.filter fun s => decide ((0 : ℚ) < s.«end»)).map
    fun s => Subtitle.mk (max 0 s.start) (max (1 / 100) s.«end») s.payload

/-- Steps 1-2 of `execute`: audio normalization always, dynamic audio
adjustments when the plan has audio segments. -/
def head_events {α : Type} (plan : EditPlan α) : List StageEvent :=
  StageEvent.audio_normalize ::
    (if plan.audio_segments ≠ [] then [StageEvent.dynamic_audio] else [])

/-- Steps 4-9 of `execute`: highlights and transitions when present, color
grading, aspect-ratio conversion, subtitle burn-in when subtitles remain,
finalize. -/
def tail_events {α : Type} (plan : EditPlan α) (subs : List (Subtitle α)) :
    List StageEvent :=
  (if plan.highlights ≠ [] then [StageEvent.highlight_effects] else [])
    ++ (if plan.transitions ≠ [] then [StageEvent.apply_transitions] else [])
    ++ [StageEvent.color_grade, StageEvent.aspect_conversion]
    ++ (if subs.isEmpty = false then [StageEvent.add_subtitles] else [])
    ++ [StageEvent.finalize]

/-- `ProcessingPipeline.execute` as the list of stage events of a successful
run, with the final timeline manager and subtitle list.  Step 3 registers
the plan cuts, applies the jump cuts, and (when the plan has subtitles)
resyncs them through `adjust_subtitle_timestamps` with the fully registered
manager, then replaces the plan subtitles by the clamped result that step 8
later branches on. -/
def ProcessingPipeline.execute {α : Type} (D : ℚ) (plan : EditPlan α) :
    List StageEvent × TimelineManager × List (Subtitle α) :=
  if plan.cuts ≠ [] then
    let reg := register_cuts (TimelineManager.mk D []) plan.cuts
    if plan.subtitles.isEmpty = false then
      let subs1 := clamp_subtitles (adjust_subtitle_timestamps plan.subtitles reg.1)
      (head_events plan ++ reg.2 ++ [StageEvent.jump_cuts, StageEvent.resync]
          ++ tail_events plan subs1,
        reg.1, subs1)
    else
      (head_events plan ++ reg.2 ++ [StageEvent.jump_cuts]
          ++ tail_events plan plan.subtitles,
        reg.1, plan.subtitles)
  else
    (head_events plan ++ tail_events plan plan.subtitles,
      TimelineManager.mk D [], plan.subtitles)

/-- `p`-events all run strictly before `q`-events in the trace `tr`. -/
def Precedes (p q : StageEvent → Prop) (tr : List StageEvent) : Prop :=
  ∀ i j, (hi : i < tr.length) → (hj : j < tr.length) →
    p (tr.get ⟨i, hi⟩) → q (tr.get ⟨j, hj⟩) → i < j

/-- The events of the cut-registration/jump-cut stage. -/
def is_register_or_jump (e : StageEvent) : Prop :=
  (∃ s t ok, e = StageEvent.register_cut s t ok) ∨ e = StageEvent.jump_cuts

/-- A valid interval lying inside `[0, D]`: what `add_cut` enforces and the
merge preserves. -/
def InBounds (D : ℚ) (i : TimeInterval) : Prop :=
  0 ≤ i.start ∧ i.start < i.«end» ∧ i.«end» ≤ D

/-! ### Lemmas about sorting and merging -/

theorem mem_insertByStart (x a : TimeInterval) (l : List TimeInterval) :
    a ∈ insertByStart x l ↔ a = x ∨ a ∈ l := by
  induction l with
  | nil => simp [insertByStart]
  | cons y ys ih =>
    by_cases h : x.start ≤ y.start
    · simp [insertByStart, h]
    · simp [insertByStart, h, ih]
      tauto

theorem mem_sortCuts (a : TimeInterval) (l : List TimeInterval) :
    a ∈ sortCuts l ↔ a ∈ l := by
  induction l with
  | nil => simp [sortCuts]
  | cons x xs ih => simp [sortCuts, mem_insertByStart, ih]

theorem pairwise_insertByStart (x : TimeInterval) (l : List TimeInterval)
    (h : l.Pairwise fun a b => a.start ≤ b.start) :
    (insertByStart x l).Pairwise fun a b => a.start ≤ b.start := by
  induction l with
  | nil => simp [insertByStart]
  | cons y ys ih =>
    rcases List.pairwise_cons.mp h with ⟨hy, hys⟩
    by_cases hle : x.start ≤ y.start
    · simp only [insertByStart, if_pos hle]
      refine List.pairwise_cons.mpr ⟨?_, h⟩
      intro b hb
      rcases List.mem_cons.mp hb with rfl | hb
      · exact hle
      · exact le_trans hle (hy b hb)
    · simp only [insertByStart, if_neg hle]
      refine List.pairwise_cons.mpr ⟨?_, ih hys⟩
      intro b hb
      rcases (mem_insertByStart x b ys).mp hb with rfl | hb
      · exact le_of_not_le hle
      · exact hy b hb

theorem pairwise_sortCuts (l : List TimeInterval) :
    (sortCuts l).Pairwise fun a b => a.start ≤ b.start := by
  induction l with
  | nil => simp [sortCuts]
  | cons x xs ih => exact pairwise_insertByStart x (sortCuts xs) ih

theorem mergeLoop_exists_head (c : TimeInterval) (l : List TimeInterval) :
    ∃ e tl, mergeLoop c l = TimeInterval.mk c.start e :: tl := by
  induction l generalizing c with
  | nil => exact ⟨c.«end», [], rfl⟩
  | cons i rest ih =>
    by_cases h : c.overlaps i ∨ c.«end» = i.start
    · simpa [mergeLoop, h] using ih ⟨c.start, max c.«end» i.«end»⟩
    · exact ⟨c.«end», mergeLoop i rest, by simp [mergeLoop, h]⟩

theorem mergeLoop_inBounds (D : ℚ) (l : List TimeInterval) (c : TimeInterval)
    (hc : InBounds D c) (hl : ∀ i ∈ l, InBounds D i) :
    ∀ x ∈ mergeLoop c l, InBounds D x := by
  induction l generalizing c with
  | nil =>
    intro x hx
    rcases List.mem_singleton.mp hx with rfl
    exact hc
  | cons i rest ih =>
    have hi : InBounds D i := hl i (List.mem_cons_self i rest)
    have hrest : ∀ j ∈ rest, InBounds D j := fun j hj => hl j (List.mem_cons_of_mem i hj)
    by_cases h : c.overlaps i ∨ c.«end» = i.start
    · intro x hx
      simp only [mergeLoop, if_pos h] at hx
      refine ih ⟨c.start, max c.«end» i.«end»⟩ ?_ hrest x hx
      exact ⟨hc.1, lt_max_of_lt_left hc.2.1, max_le hc.2.2 hi.2.2⟩
    · intro x hx
      simp only [mergeLoop, if_neg h] at hx
      rcases List.mem_cons.mp hx with rfl | hx
      · exact hc
      · exact ih i hi hrest x hx

theorem mergeLoop_chain (D : ℚ) (l : List TimeInterval) (c : TimeInterval)
    (hc : InBounds D c) (hl : ∀ i ∈ l, InBounds D i)
    (hstart : ∀ i ∈ l, c.start ≤ i.start)
    (hsorted : l.Pairwise fun a b => a.start ≤ b.start) :
    List.Chain' separated (mergeLoop c l) := by
  induction l generalizing c with
  | nil => simp [mergeLoop]
  | cons i rest ih =>
    have hi : InBounds D i := hl i (List.mem_cons_self i rest)
    have hrest : ∀ j ∈ rest, InBounds D j := fun j hj => hl j (List.mem_cons_of_mem i hj)
    rcases List.pairwise_cons.mp hsorted with ⟨hirest, hrestsorted⟩
    by_cases h : c.overlaps i ∨ c.«end» = i.start
    · simp only [mergeLoop, if_pos h]
      refine ih ⟨c.start, max c.«end» i.«end»⟩
        ⟨hc.1, lt_max_of_lt_left hc.2.1, max_le hc.2.2 hi.2.2⟩ hrest ?_ hrestsorted
      intro j hj
      exact hstart j (List.mem_cons_of_mem i hj)
    · have hcs : c.start < i.«end» :=
        lt_of_le_of_lt (hstart i (List.mem_cons_self i rest)) hi.2.1
      have hsep : c.«end» < i.start := by
        rcases not_or.mp h with ⟨hno, hne⟩
        have : ¬ i.start < c.«end» := fun hlt => hno ⟨hcs, hlt⟩
        exact lt_of_le_of_ne (le_of_not_lt this) hne
      simp only [mergeLoop, if_neg h]
      rcases mergeLoop_exists_head i rest with ⟨e, tl, heq⟩
      rw [heq]
      refine List.chain'_cons.mpr ⟨hsep, ?_⟩
      rw [← heq]
      exact ih i hi hrest hirest hrestsorted

theorem merged_inBounds (tm : TimelineManager) (h : tm.WF) :
    ∀ x ∈ tm._merge_overlapping_cuts, InBounds tm.original_duration x := by
  unfold TimelineManager._merge_overlapping_cuts
  rcases hs : sortCuts tm.removed_intervals with _ | ⟨c, rest⟩
  · simp
  · have hmem : ∀ i ∈ c :: rest, InBounds tm.original_duration i := by
      intro i hi
      have : i ∈ tm.removed_intervals := (mem_sortCuts i _).mp (hs ▸ hi)
      exact h.2 i this
    exact mergeLoop_inBounds tm.original_duration rest c
      (hmem c (List.mem_cons_self c rest))
      (fun i hi => hmem i (List.mem_cons_of_mem c hi))

theorem merged_chain (tm : TimelineManager) (h : tm.WF) :
    List.Chain' separated tm._merge_overlapping_cuts := by
  unfold TimelineManager._merge_overlapping_cuts
  rcases hs : sortCuts tm.removed_intervals with _ | ⟨c, rest⟩
  · simp
  · have hmem : ∀ i ∈ c :: rest, InBounds tm.original_duration i := by
      intro i hi
      have : i ∈ tm.removed_intervals := (mem_sortCuts i _).mp (hs ▸ hi)
      exact h.2 i this
    have hsorted : (c :: rest).Pairwise fun a b => a.start ≤ b.start := by
      rw [← hs]; exact pairwise_sortCuts tm.removed_intervals
    rcases List.pairwise_cons.mp hsorted with ⟨hcrest, hrestsorted⟩
    exact mergeLoop_chain tm.original_duration rest c
      (hmem c (List.mem_cons_self c rest))
      (fun i hi => hmem i (List.mem_cons_of_mem c hi)) hcrest hrestsorted

/-! ### Consequences of separation, and the `map_timestamp` loop -/

theorem chain_separated_forall (c : TimeInterval) (rest : List TimeInterval)
    (hchain : List.Chain' separated (c :: rest))
    (hval : ∀ j ∈ rest, j.start < j.«end») :
    ∀ d ∈ rest, c.«end» < d.start := by
  induction rest generalizing c with
  | nil => intro d hd; simp at hd
  | cons d rest' ih =>
    have hcd : separated c d := (List.chain'_cons.mp hchain).1
    have htail : List.Chain' separated (d :: rest') := (List.chain'_cons.mp hchain).2
    intro j hj
    rcases List.mem_cons.mp hj with rfl | hj
    · exact hcd
    · have hdj : d.«end» < j.start :=
        ih d htail (fun k hk => hval k (List.mem_cons_of_mem d hk)) j hj
      have hdd : d.start < d.«end» := hval d (List.mem_cons_self d rest')
      exact lt_trans hcd (lt_trans hdd hdj)

theorem removed_before_cons (t : ℚ) (c : TimeInterval) (l : List TimeInterval) :
    removed_before t (c :: l) =
      (if c.«end» ≤ t then c.duration else 0) + removed_before t l := by
  by_cases h : c.«end» ≤ t <;>
    simp [removed_before, sumDurations, List.filter_cons, h]

theorem removed_before_nonneg (t : ℚ) (l : List TimeInterval)
    (hval : ∀ c ∈ l, c.start < c.«end») : 0 ≤ removed_before t l := by
  induction l with
  | nil => simp [removed_before, sumDurations]
  | cons c rest ih =>
    have hc : c.start < c.«end» := hval c (List.mem_cons_self c rest)
    have hrest : 0 ≤ removed_before t rest :=
      ih fun j hj => hval j (List.mem_cons_of_mem c hj)
    rw [removed_before_cons]
    have hdur : 0 ≤ c.duration := by
      simp only [TimeInterval.duration]; linarith
    by_cases h : c.«end» ≤ t <;> simp [h] <;> linarith

theorem removed_before_le (t b : ℚ) (l : List TimeInterval)
    (hchain : List.Chain' separated l)
    (hval : ∀ c ∈ l, c.start < c.«end»)
    (hlb : ∀ c ∈ l, b ≤ c.start) :
    removed_before t l ≤ max 0 (t - b) := by
  induction l generalizing b with
  | nil => simp [removed_before, sumDurations]
  | cons c rest ih =>
    have hc : c.start < c.«end» := hval c (List.mem_cons_self c rest)
    have hb : b ≤ c.start := hlb c (List.mem_cons_self c rest)
    have hvrest : ∀ j ∈ rest, j.start < j.«end» :=
      fun j hj => hval j (List.mem_cons_of_mem c hj)
    have hlbrest : ∀ j ∈ rest, c.«end» ≤ j.start :=
      fun j hj => le_of_lt (chain_separated_forall c rest hchain hvrest j hj)
    have hrest : removed_before t rest ≤ max 0 (t - c.«end») :=
      ih c.«end» hchain.tail hvrest hlbrest
    rw [removed_before_cons]
    by_cases h : c.«end» ≤ t
    · have hmax : max 0 (t - c.«end») = t - c.«end» := max_eq_right (by linarith)
      have h1 : removed_before t rest ≤ t - c.«end» := hmax ▸ hrest
      have h2 : (t : ℚ) - b ≤ max 0 (t - b) := le_max_right 0 (t - b)
      simp only [if_pos h, TimeInterval.duration]
      linarith
    · have hmax : max 0 (t - c.«end») = 0 := max_eq_left (by linarith [lt_of_not_le h])
      have h1 : removed_before t rest ≤ 0 := hmax ▸ hrest
      have h2 : (0 : ℚ) ≤ max 0 (t - b) := le_max_left 0 (t - b)
      simp only [if_neg h]
      linarith

theorem mapLoop_eq_of_not_contains (t : ℚ) (l : List TimeInterval)
    (hchain : List.Chain' separated l)
    (hval : ∀ c ∈ l, c.start < c.«end»)
    (hnc : ∀ c ∈ l, ¬ c.contains t) :
    ∀ r, mapLoop t r l = t - (r + removed_before t l) := by
  induction l with
  | nil =>
    intro r
    simp [mapLoop, removed_before, sumDurations]
  | cons c rest ih =>
    intro r
    have hc : c.start < c.«end» := hval c (List.mem_cons_self c rest)
    have hvrest : ∀ j ∈ rest, j.start < j.«end» :=
      fun j hj => hval j (List.mem_cons_of_mem c hj)
    have hncc : ¬ c.contains t := hnc c (List.mem_cons_self c rest)
    by_cases h : c.«end» ≤ t
    · have := ih hchain.tail hvrest
        (fun j hj => hnc j (List.mem_cons_of_mem c hj)) (r + c.duration)
      simp only [mapLoop, if_pos h, this, removed_before_cons, if_pos h]
      ring
    · have hts : t < c.start := by
        rcases not_and_or.mp (fun hcon => hncc hcon) with h1 | h2
        · exact lt_of_not_le h1
        · exact absurd (le_of_lt (lt_of_not_le h)) (by simpa using h2)
      have hcond : ¬ (c.start < t ∧ t < c.«end») := fun hco => absurd hts (not_lt.mpr (le_of_lt hco.1))
      have hlbrest : ∀ j ∈ rest, c.«end» ≤ j.start :=
        fun j hj => le_of_lt (chain_separated_forall c rest hchain hvrest j hj)
      have hrest0 : removed_before t rest = 0 := by
        have hle : removed_before t rest ≤ max 0 (t - c.«end») :=
          removed_before_le t c.«end» rest hchain.tail hvrest hlbrest
        have hmax : max 0 (t - c.«end») = 0 := max_eq_left (by linarith [lt_of_not_le h])
        have hge : 0 ≤ removed_before t rest := removed_before_nonneg t rest hvrest
        linarith [hmax ▸ hle]
      simp only [mapLoop, if_neg h, if_neg hcond, removed_before_cons, if_neg h, hrest0]
      ring

theorem removed_before_mono_valid (t1 t2 : ℚ) (l : List TimeInterval)
    (hchain : List.Chain' separated l)
    (hval : ∀ c ∈ l, c.start < c.«end»)
    (hnc : ∀ c ∈ l, ¬ c.contains t1)
    (h12 : t1 ≤ t2) :
    t1 - removed_before t1 l ≤ t2 - removed_before t2 l := by
  induction l with
  | nil => simp [removed_before, sumDurations]; linarith
  | cons c rest ih =>
    have hc : c.start < c.«end» := hval c (List.mem_cons_self c rest)
    have hvrest : ∀ j ∈ rest, j.start < j.«end» :=
      fun j hj => hval j (List.mem_cons_of_mem c hj)
    have hncc : ¬ c.contains t1 := hnc c (List.mem_cons_self c rest)
    have hlbrest : ∀ j ∈ rest, c.«end» ≤ j.start :=
      fun j hj => le_of_lt (chain_separated_forall c rest hchain hvrest j hj)
    by_cases h1 : c.«end» ≤ t1
    · have h2 : c.«end» ≤ t2 := le_trans h1 h12
      have := ih hchain.tail hvrest (fun j hj => hnc j (List.mem_cons_of_mem c hj))
      rw [removed_before_cons, removed_before_cons, if_pos h1, if_pos h2]
      linarith
    · have hts : t1 < c.start := by
        rcases not_and_or.mp (fun hcon => hncc hcon) with ha | hb
        · exact lt_of_not_le ha
        · exact absurd (le_of_lt (lt_of_not_le h1)) (by simpa using hb)
      have hrb1 : removed_before t1 rest = 0 := by
        have hle : removed_before t1 rest ≤ max 0 (t1 - c.«end») :=
          removed_before_le t1 c.«end» rest hchain.tail hvrest hlbrest
        have hmax : max 0 (t1 - c.«end») = 0 := max_eq_left (by linarith [lt_of_not_le h1])
        have hge : 0 ≤ removed_before t1 rest := removed_before_nonneg t1 rest hvrest
        linarith [hmax ▸ hle]
      rw [removed_before_cons, removed_before_cons, if_neg h1, hrb1]
      by_cases h2 : c.«end» ≤ t2
      · have hle2 : removed_before t2 rest ≤ max 0 (t2 - c.«end») :=
          removed_before_le t2 c.«end» rest hchain.tail hvrest hlbrest
        have hmax2 : max 0 (t2 - c.«end») = t2 - c.«end» := max_eq_right (by linarith)
        have := hmax2 ▸ hle2
        simp only [if_pos h2, TimeInterval.duration]
        linarith
      · have hrb2 : removed_before t2 rest = 0 := by
          have hle2 : removed_before t2 rest ≤ max 0 (t2 - c.«end») :=
            removed_before_le t2 c.«end» rest hchain.tail hvrest hlbrest
          have hmax2 : max 0 (t2 - c.«end») = 0 := max_eq_left (by linarith [lt_of_not_le h2])
          have hge2 : 0 ≤ removed_before t2 rest := removed_before_nonneg t2 rest hvrest
          linarith [hmax2 ▸ hle2]
        rw [if_neg h2, hrb2]
        linarith

theorem validate_eq_true_iff (tm : TimelineManager) (t : ℚ) :
    tm.validate_timestamp t = true ↔
      (∀ c ∈ tm._merge_overlapping_cuts, ¬ c.contains t) ∧
        0 ≤ t ∧ t ≤ tm.original_duration := by
  unfold TimelineManager.validate_timestamp
  by_cases h : tm._merge_overlapping_cuts.any fun cut => decide (cut.contains t)
  · simp only [if_pos h]
    simp only [List.any_eq_true, decide_eq_true_eq] at h
    rcases h with ⟨c, hc, hcon⟩
    constructor
    · intro hfalse; exact absurd hfalse (by simp)
    · intro ⟨hall, _⟩; exact absurd hcon (hall c hc)
  · simp only [if_neg h, decide_eq_true_eq]
    simp only [List.any_eq_true, decide_eq_true_eq, not_exists] at h
    constructor
    · intro hb
      exact ⟨fun c hc hcon => h c ⟨hc, hcon⟩, hb⟩
    · intro ⟨_, hb⟩; exact hb

theorem map_timestamp_of_valid (tm : TimelineManager) (t : ℚ) (hwf : tm.WF)
    (hv : tm.validate_timestamp t = true) :
    tm.map_timestamp t = t - removed_before t tm._merge_overlapping_cuts := by
  rcases (validate_eq_true_iff tm t).mp hv with ⟨hnc, h0, hD⟩
  unfold TimelineManager.map_timestamp
  rw [if_neg (not_lt.mpr h0), if_neg (not_lt.mpr hD)]
  have hval : ∀ c ∈ tm._merge_overlapping_cuts, c.start < c.«end» :=
    fun c hc => (merged_inBounds tm hwf c hc).2.1
  rw [mapLoop_eq_of_not_contains t _ (merged_chain tm hwf) hval hnc 0]
  ring_nf

/-! ### Kept segments, boundary mapping, idempotence -/

theorem sumSegments_cons (a b : ℚ) (l : List (ℚ × ℚ)) :
    sumSegments ((a, b) :: l) = (b - a) + sumSegments l := by
  simp [sumSegments]

theorem sumDurations_cons (c : TimeInterval) (l : List TimeInterval) :
    sumDurations (c :: l) = c.duration + sumDurations l := by
  simp [sumDurations]

theorem keptLoop_sum (D : ℚ) (l : List TimeInterval) :
    ∀ cur, List.Chain' separated l →
      (∀ c ∈ l, c.start < c.«end» ∧ c.«end» ≤ D) →
      (∀ c, l.head? = some c → cur ≤ c.start) →
      cur ≤ D →
      sumSegments (keptLoop D cur l) = (D - cur) - sumDurations l := by
  induction l with
  | nil =>
    intro cur _ _ _ hcD
    by_cases h : cur < D
    · simp [keptLoop, h, sumSegments, sumDurations]
    · have : cur = D := le_antisymm hcD (le_of_not_lt h)
      simp [keptLoop, h, sumSegments, sumDurations, this]
  | cons c rest ih =>
    intro cur hchain hval hhead hcD
    have hc : c.start < c.«end» ∧ c.«end» ≤ D := hval c (List.mem_cons_self c rest)
    have hcs : cur ≤ c.start := hhead c rfl
    have hnext : ∀ d, rest.head? = some d → c.«end» ≤ d.start := by
      intro d hd
      cases rest with
      | nil => simp at hd
      | cons e rest' =>
        have : e = d := by simpa using hd
        subst this
        exact le_of_lt (List.chain'_cons.mp hchain).1
    have hrec : sumSegments (keptLoop D c.«end» rest) = (D - c.«end») - sumDurations rest :=
      ih c.«end» hchain.tail
        (fun j hj => hval j (List.mem_cons_of_mem c hj)) hnext hc.2
    by_cases h : cur < c.start
    · simp only [keptLoop, if_pos h, sumSegments_cons, hrec, sumDurations_cons,
        TimeInterval.duration]
      ring
    · have hceq : cur = c.start := le_antisymm hcs (le_of_not_lt h)
      simp only [keptLoop, if_neg h, hrec, sumDurations_cons, TimeInterval.duration]
      rw [hceq]
      ring

theorem removed_before_eq_zero (t : ℚ) (l : List TimeInterval)
    (h : ∀ j ∈ l, t < j.«end») : removed_before t l = 0 := by
  induction l with
  | nil => simp [removed_before, sumDurations]
  | cons c rest ih =>
    rw [removed_before_cons, if_neg (not_le.mpr (h c (List.mem_cons_self c rest)))]
    rw [ih fun j hj => h j (List.mem_cons_of_mem c hj)]
    ring

theorem mapLoop_of_le_head (t r : ℚ) (l : List TimeInterval)
    (hval : ∀ c ∈ l, c.start < c.«end»)
    (hle : ∀ c, l.head? = some c → t ≤ c.start) :
    mapLoop t r l = t - r := by
  cases l with
  | nil => rfl
  | cons d rest =>
    have hd : t ≤ d.start := hle d rfl
    have hdv : d.start < d.«end» := hval d (List.mem_cons_self d rest)
    have h1 : ¬ d.«end» ≤ t := not_le.mpr (lt_of_le_of_lt hd hdv)
    have h2 : ¬ (d.start < t ∧ t < d.«end») := fun hco => absurd hd (not_le.mpr hco.1)
    simp [mapLoop, h1, h2]

theorem mapLoop_cut_boundary (l : List TimeInterval)
    (hchain : List.Chain' separated l)
    (hval : ∀ c ∈ l, c.start < c.«end») :
    ∀ c ∈ l, ∀ r,
      mapLoop c.start r l = c.start - (r + removed_before c.start l) ∧
        mapLoop c.«end» r l = c.start - (r + removed_before c.start l) := by
  induction l with
  | nil => intro c hc; simp at hc
  | cons d rest ih =>
    intro c hc r
    have hdv : d.start < d.«end» := hval d (List.mem_cons_self d rest)
    have hvrest : ∀ j ∈ rest, j.start < j.«end» :=
      fun j hj => hval j (List.mem_cons_of_mem d hj)
    have hsep : ∀ j ∈ rest, d.«end» < j.start :=
      chain_separated_forall d rest hchain hvrest
    rcases List.mem_cons.mp hc with rfl | hc
    · have hrb : removed_before c.start (c :: rest) = 0 := by
        refine removed_before_eq_zero c.start (c :: rest) ?_
        intro j hj
        rcases List.mem_cons.mp hj with rfl | hj
        · exact hdv
        · exact lt_trans hdv (lt_trans (hsep j hj) (hvrest j hj))
      constructor
      · have h1 : ¬ c.«end» ≤ c.start := not_le.mpr hdv
        have h2 : ¬ (c.start < c.start ∧ c.start < c.«end») := fun hco => lt_irrefl _ hco.1
        rw [hrb]
        simp [mapLoop, h1, h2]
      · have h1 : c.«end» ≤ c.«end» := le_refl _
        have hrestmap : mapLoop c.«end» (r + c.duration) rest = c.«end» - (r + c.duration) := by
          refine mapLoop_of_le_head c.«end» (r + c.duration) rest hvrest ?_
          intro j hj
          have hjmem : j ∈ rest := List.mem_of_mem_head? (by simp [hj])
          exact le_of_lt (hsep j hjmem)
        rw [hrb]
        simp only [mapLoop, if_pos h1]
        rw [hrestmap]
        simp only [TimeInterval.duration]
        ring
    · have hdc : d.«end» < c.start := hsep c hc
      have hcv : c.start < c.«end» := hvrest c hc
      have h1s : d.«end» ≤ c.start := le_of_lt hdc
      have h1e : d.«end» ≤ c.«end» := le_of_lt (lt_trans hdc hcv)
      have hrb : removed_before c.start (d :: rest) =
          d.duration + removed_before c.start rest := by
        rw [removed_before_cons, if_pos h1s]
      rcases ih hchain.tail hvrest c hc (r + d.duration) with ⟨ihs, ihe⟩
      constructor
      · simp only [mapLoop, if_pos h1s, ihs, hrb]
        ring
      · simp only [mapLoop, if_pos h1e, ihe, hrb]
        ring

theorem insertByStart_of_le (x : TimeInterval) (l : List TimeInterval)
    (hle : ∀ c, l.head? = some c → x.start ≤ c.start) :
    insertByStart x l = x :: l := by
  cases l with
  | nil => rfl
  | cons y ys => simp [insertByStart, hle y rfl]

theorem chain_start_le_of_sep (l : List TimeInterval)
    (hchain : List.Chain' separated l)
    (hval : ∀ c ∈ l, c.start < c.«end») :
    List.Chain' (fun a b => a.start ≤ b.start) l := by
  induction l with
  | nil => simp
  | cons c rest ih =>
    cases rest with
    | nil => simp
    | cons d rest' =>
      rw [List.chain'_cons] at hchain ⊢
      refine ⟨?_, ih hchain.2 fun j hj => hval j (List.mem_cons_of_mem c hj)⟩
      have hcv : c.start < c.«end» := hval c (List.mem_cons_self c _)
      exact le_of_lt (lt_trans hcv hchain.1)

theorem sortCuts_eq_self (l : List TimeInterval)
    (hsorted : List.Chain' (fun a b => a.start ≤ b.start) l) :
    sortCuts l = l := by
  induction l with
  | nil => rfl
  | cons x xs ih =>
    have htail : sortCuts xs = xs := ih hsorted.tail
    simp only [sortCuts, htail]
    refine insertByStart_of_le x xs ?_
    intro c hc
    cases xs with
    | nil => simp at hc
    | cons y ys =>
      have : y = c := by simpa using hc
      subst this
      exact (List.chain'_cons.mp hsorted).1

theorem mergeLoop_eq_self (c : TimeInterval) (l : List TimeInterval)
    (hchain : List.Chain' separated (c :: l)) :
    mergeLoop c l = c :: l := by
  induction l generalizing c with
  | nil => rfl
  | cons i rest ih =>
    have hci : c.«end» < i.start := (List.chain'_cons.mp hchain).1
    have hcond : ¬ (c.overlaps i ∨ c.«end» = i.start) := by
      rintro (⟨_, hover⟩ | htouch)
      · exact absurd hci (not_lt.mpr (le_of_lt hover))
      · exact absurd htouch (ne_of_lt hci)
    simp only [mergeLoop, if_neg hcond]
    rw [ih i (List.chain'_cons.mp hchain).2]

/-! ### Pairwise separation of the merged cuts -/

theorem pairwise_of_chain_sep (l : List TimeInterval)
    (hchain : List.Chain' separated l)
    (hval : ∀ c ∈ l, c.start < c.«end») :
    l.Pairwise fun a b => a.start < b.start ∧ a.«end» < b.start := by
  induction l with
  | nil => simp
  | cons c rest ih =>
    have hvrest : ∀ j ∈ rest, j.start < j.«end» :=
      fun j hj => hval j (List.mem_cons_of_mem c hj)
    have hsep : ∀ j ∈ rest, c.«end» < j.start :=
      chain_separated_forall c rest hchain hvrest
    refine List.pairwise_cons.mpr ⟨?_, ih hchain.tail hvrest⟩
    intro j hj
    have hcv : c.start < c.«end» := hval c (List.mem_cons_self c rest)
    exact ⟨lt_trans hcv (hsep j hj), hsep j hj⟩

/-! ### The claims -/

/-- C1: the claim says a timestamp strictly inside a merged cut maps to the
cut's start minus the duration removed before that cut (snap to cut start);
with duration 60, cut (10,20) and t = 15 that value is 10, and the repo's
own test `test_timestamp_inside_cut` asserts 10.  The code instead adds
`t - cut.start` to `removed_before` before subtracting it from `cut.start`,
returning 5.  This theorem evaluates the embedded code at that input. -/
theorem C1_in_cut_snap_code_bug :
    (TimelineManager.mk 60 [TimeInterval.mk 10 20]).map_timestamp 15 = 5 ∧
      ¬ (TimelineManager.mk 60 [TimeInterval.mk 10 20]).map_timestamp 15 =
          (TimeInterval.mk 10 20).start -
            removed_before (TimeInterval.mk 10 20).start
              (TimelineManager.mk 60 [TimeInterval.mk 10 20])._merge_overlapping_cuts := by
  have h : (TimelineManager.mk 60 [TimeInterval.mk 10 20]).map_timestamp 15 = 5 := by
    norm_num [TimelineManager.map_timestamp, TimelineManager._merge_overlapping_cuts,
      sortCuts, insertByStart, mergeLoop, mapLoop, TimeInterval.duration]
  refine ⟨h, ?_⟩
  rw [h]
  norm_num [removed_before, sumDurations, TimelineManager._merge_overlapping_cuts,
    sortCuts, insertByStart, mergeLoop, List.filter, TimeInterval.duration]

/-- C2: the claim (spec Scenario E and the repo test
`test_subtitle_spanning_cut`) says the annotation {12,18} with cut (15,20)
on a 60s timeline is emitted as {12,15}.  The embedded code maps the end 18
to 12 (the same in-cut slip as C1), so `new_end > new_start` fails and the
annotation is dropped: the resync output is empty, not [{12,15}]. -/
theorem C2_scenario_e_code_bug :
    adjust_subtitle_timestamps [Subtitle.mk 12 18 ()]
        (TimelineManager.mk 60 [TimeInterval.mk 15 20]) = [] ∧
      ¬ adjust_subtitle_timestamps [Subtitle.mk 12 18 ()]
          (TimelineManager.mk 60 [TimeInterval.mk 15 20]) =
        [Subtitle.mk 12 15 ()] := by
  have h : adjust_subtitle_timestamps [Subtitle.mk 12 18 ()]
      (TimelineManager.mk 60 [TimeInterval.mk 15 20]) = [] := by
    norm_num [adjust_subtitle_timestamps, TimelineManager.validate_timestamp,
      TimelineManager.map_timestamp, TimelineManager._merge_overlapping_cuts,
      sortCuts, insertByStart, mergeLoop, mapLoop, TimeInterval.contains,
      TimeInterval.duration]
  exact ⟨h, by rw [h]; simp⟩

/-- C3: resync drops an annotation exactly when both endpoints are invalid
per `validate_timestamp` or the mapped end is at most the mapped start;
every surviving annotation is a copy with only start/end replaced by their
mapped values, in input order — i.e. resync is the filter-then-map below.
In particular {12,15} with cut (10,20) is dropped. -/
theorem C3_resync_filter_map :
    (∀ (α : Type) (tm : TimelineManager) (subs : List (Subtitle α)),
      adjust_subtitle_timestamps subs tm =
        (subs.filter fun s =>
          decide (¬ (tm.validate_timestamp s.start = false ∧
              tm.validate_timestamp s.«end» = false) ∧
            tm.map_timestamp s.start < tm.map_timestamp s.«end»)).map
          fun s => { s with start := tm.map_timestamp s.start,
                            «end» := tm.map_timestamp s.«end» }) ∧
      adjust_subtitle_timestamps [Subtitle.mk 12 15 ()]
        (TimelineManager.mk 60 [TimeInterval.mk 10 20]) = [] := by
  constructor
  · intro α tm subs
    induction subs with
    | nil => rfl
    | cons s rest ih =>
      by_cases h1 : tm.validate_timestamp s.start = false ∧
          tm.validate_timestamp s.«end» = false
      · simp [adjust_subtitle_timestamps, h1, ih, List.filter_cons]
      · have h1v : tm.validate_timestamp s.start = true ∨
            tm.validate_timestamp s.«end» = true := by
          rcases not_and_or.mp h1 with h | h
          · exact Or.inl (by simpa using h)
          · exact Or.inr (by simpa using h)
        by_cases h2 : tm.map_timestamp s.start < tm.map_timestamp s.«end»
        · rcases h1v with h | h <;>
            simp [adjust_subtitle_timestamps, h, h2, ih, List.filter_cons]
        · rcases h1v with h | h <;>
            simp [adjust_subtitle_timestamps, h, h2, ih, List.filter_cons]
  · norm_num [adjust_subtitle_timestamps, TimelineManager.validate_timestamp,
      TimelineManager._merge_overlapping_cuts, sortCuts, insertByStart,
      mergeLoop, TimeInterval.contains]

/-- C4: over timestamps that `validate_timestamp` accepts (inside
[0, original_duration] and in no merged cut), `map_timestamp` is
monotonically non-decreasing. -/
theorem C4_map_timestamp_monotone (tm : TimelineManager) (t1 t2 : ℚ)
    (hwf : tm.WF)
    (h1 : tm.validate_timestamp t1 = true)
    (h2 : tm.validate_timestamp t2 = true)
    (h12 : t1 < t2) :
    tm.map_timestamp t1 ≤ tm.map_timestamp t2 := by
  rw [map_timestamp_of_valid tm t1 hwf h1, map_timestamp_of_valid tm t2 hwf h2]
  exact removed_before_mono_valid t1 t2 _ (merged_chain tm hwf)
    (fun c hc => (merged_inBounds tm hwf c hc).2.1)
    ((validate_eq_true_iff tm t1).mp h1).1 (le_of_lt h12)

theorem C4_map_timestamp_monotone_witness :
    (TimelineManager.mk 60 [TimeInterval.mk 10 20]).map_timestamp 5 ≤
      (TimelineManager.mk 60 [TimeInterval.mk 10 20]).map_timestamp 25 :=
  C4_map_timestamp_monotone (TimelineManager.mk 60 [TimeInterval.mk 10 20]) 5 25
    (by decide) (by decide) (by decide) (by decide)

/-- C5: kept-segment durations plus merged-cut durations add up to the
original duration, and the edited duration equals the kept total. -/
theorem C5_kept_plus_removed (tm : TimelineManager) (hwf : tm.WF) :
    sumSegments tm.get_kept_segments + sumDurations tm._merge_overlapping_cuts
        = tm.original_duration ∧
      tm.get_edited_duration = sumSegments tm.get_kept_segments := by
  have key : sumSegments tm.get_kept_segments
      = tm.original_duration - sumDurations tm._merge_overlapping_cuts := by
    unfold TimelineManager.get_kept_segments
    rcases hm : tm._merge_overlapping_cuts with _ | ⟨c, rest⟩
    · simp [sumSegments, sumDurations]
    · have hchain := merged_chain tm hwf
      have hbounds := merged_inBounds tm hwf
      rw [hm] at hchain hbounds
      have hsum := keptLoop_sum tm.original_duration (c :: rest) 0 hchain
        (fun j hj => ⟨(hbounds j hj).2.1, (hbounds j hj).2.2⟩)
        (fun j hj => by
          have hjc : c = j := by simpa using hj
          subst hjc
          exact (hbounds c (List.mem_cons_self c rest)).1)
        (le_of_lt hwf.1)
      simpa using hsum
  refine ⟨by linarith [key], ?_⟩
  unfold TimelineManager.get_edited_duration
  linarith [key]

theorem C5_kept_plus_removed_witness :
    sumSegments (TimelineManager.mk 60 [TimeInterval.mk 10 20]).get_kept_segments +
        sumDurations (TimelineManager.mk 60 [TimeInterval.mk 10 20])._merge_overlapping_cuts
        = 60 ∧
      (TimelineManager.mk 60 [TimeInterval.mk 10 20]).get_edited_duration =
        sumSegments (TimelineManager.mk 60 [TimeInterval.mk 10 20]).get_kept_segments :=
  C5_kept_plus_removed (TimelineManager.mk 60 [TimeInterval.mk 10 20]) (by decide)

/-- C6: the merged cut list is sorted ascending by start and pairwise
strictly separated (no overlap and no touching endpoints); adjacent
registered cuts (10,20) and (20,30) on a 60s timeline merge into (10,30)
with edited duration 40. -/
theorem C6_merged_separated :
    (∀ tm : TimelineManager, tm.WF →
      tm._merge_overlapping_cuts.Pairwise fun a b =>
        a.start < b.start ∧ a.«end» < b.start) ∧
      (TimelineManager.mk 60 [TimeInterval.mk 10 20,
          TimeInterval.mk 20 30])._merge_overlapping_cuts = [TimeInterval.mk 10 30] ∧
      (TimelineManager.mk 60 [TimeInterval.mk 10 20,
          TimeInterval.mk 20 30]).get_edited_duration = 40 := by
  refine ⟨?_, ?_, ?_⟩
  · intro tm hwf
    exact pairwise_of_chain_sep _ (merged_chain tm hwf)
      fun c hc => (merged_inBounds tm hwf c hc).2.1
  · norm_num [TimelineManager._merge_overlapping_cuts, sortCuts, insertByStart,
      mergeLoop, TimeInterval.overlaps]
  · norm_num [TimelineManager.get_edited_duration,
      TimelineManager._merge_overlapping_cuts, sortCuts, insertByStart,
      mergeLoop, TimeInterval.overlaps, sumDurations, TimeInterval.duration]

/-- C7: `add_cut` fails exactly when `start < 0` or
`end > original_duration` or `start >= end`; on failure the manager is
unchanged, on success the cut is appended to the registered collection. -/
theorem C7_add_cut_guard (tm : TimelineManager) (s e : ℚ) :
    ((tm.add_cut s e).2.isSome ↔ (s < 0 ∨ e > tm.original_duration ∨ s ≥ e)) ∧
      ((tm.add_cut s e).2.isSome → (tm.add_cut s e).1 = tm) ∧
      ((tm.add_cut s e).2 = none →
        (tm.add_cut s e).1 = TimelineManager.mk tm.original_duration
          (tm.removed_intervals ++ [TimeInterval.mk s e])) := by
  by_cases h1 : s < 0 ∨ e > tm.original_duration
  · simp only [TimelineManager.add_cut, if_pos h1]
    simp
    tauto
  · by_cases h2 : s ≥ e
    · simp only [TimelineManager.add_cut, if_neg h1, if_pos h2]
      simp
      tauto
    · simp only [TimelineManager.add_cut, if_neg h1, if_neg h2]
      simp
      push_neg at h1 h2
      exact ⟨h1.1, h1.2, h2⟩

theorem C7_add_cut_guard_witness :
    (((TimelineManager.mk 60 []).add_cut (-1) 5).2.isSome ↔
        ((-1 : ℚ) < 0 ∨ (5 : ℚ) > 60 ∨ (-1 : ℚ) ≥ 5)) ∧
      (((TimelineManager.mk 60 []).add_cut (-1) 5).2.isSome →
        ((TimelineManager.mk 60 []).add_cut (-1) 5).1 = TimelineManager.mk 60 []) ∧
      (((TimelineManager.mk 60 []).add_cut (-1) 5).2 = none →
        ((TimelineManager.mk 60 []).add_cut (-1) 5).1 =
          TimelineManager.mk 60 ([] ++ [TimeInterval.mk (-1) 5])) :=
  C7_add_cut_guard (TimelineManager.mk 60 []) (-1) 5

/-- C9: merging is idempotent — a manager whose registered cuts are the
merged cuts of another merges to the same list. -/
theorem C9_merge_idempotent (tm : TimelineManager) (hwf : tm.WF) :
    (TimelineManager.mk tm.original_duration
        tm._merge_overlapping_cuts)._merge_overlapping_cuts
      = tm._merge_overlapping_cuts := by
  have hchain := merged_chain tm hwf
  have hval : ∀ c ∈ tm._merge_overlapping_cuts, c.start < c.«end» :=
    fun c hc => (merged_inBounds tm hwf c hc).2.1
  rcases hm : tm._merge_overlapping_cuts with _ | ⟨c, rest⟩
  · simp [TimelineManager._merge_overlapping_cuts, sortCuts]
  · rw [hm] at hchain hval
    have hsort : sortCuts (c :: rest) = c :: rest :=
      sortCuts_eq_self _ (chain_start_le_of_sep _ hchain hval)
    have hmerge : mergeLoop c rest = c :: rest := mergeLoop_eq_self c rest hchain
    simp only [TimelineManager._merge_overlapping_cuts, hsort]
    exact hmerge

theorem C9_merge_idempotent_witness :
    (TimelineManager.mk 60
        (TimelineManager.mk 60 [TimeInterval.mk 10 20])._merge_overlapping_cuts)._merge_overlapping_cuts
      = (TimelineManager.mk 60 [TimeInterval.mk 10 20])._merge_overlapping_cuts :=
  C9_merge_idempotent (TimelineManager.mk 60 [TimeInterval.mk 10 20]) (by decide)

/-- C10: for every merged cut, the two boundary points (not strictly inside
the cut) map to the same edited-axis instant, namely the cut's start minus
the total duration of merged cuts ending before it. -/
theorem C10_boundaries_map_equal (tm : TimelineManager) (c : TimeInterval)
    (hwf : tm.WF) (hc : c ∈ tm._merge_overlapping_cuts) :
    tm.map_timestamp c.start = tm.map_timestamp c.«end» ∧
      tm.map_timestamp c.start
        = c.start - removed_before c.start tm._merge_overlapping_cuts := by
  have hb := merged_inBounds tm hwf c hc
  have hchain := merged_chain tm hwf
  have hval : ∀ j ∈ tm._merge_overlapping_cuts, j.start < j.«end» :=
    fun j hj => (merged_inBounds tm hwf j hj).2.1
  rcases mapLoop_cut_boundary _ hchain hval c hc 0 with ⟨hs, he⟩
  have h0s : ¬ c.start < 0 := not_lt.mpr hb.1
  have hDs : ¬ c.start > tm.original_duration :=
    not_lt.mpr (le_trans (le_of_lt hb.2.1) hb.2.2)
  have h0e : ¬ c.«end» < 0 := not_lt.mpr (le_trans hb.1 (le_of_lt hb.2.1))
  have hDe : ¬ c.«end» > tm.original_duration := not_lt.mpr hb.2.2
  unfold TimelineManager.map_timestamp
  rw [if_neg h0s, if_neg hDs, if_neg h0e, if_neg hDe, hs, he]
  constructor <;> ring

theorem C10_boundaries_map_equal_witness :
    (TimelineManager.mk 60 [TimeInterval.mk 10 20]).map_timestamp 10 =
        (TimelineManager.mk 60 [TimeInterval.mk 10 20]).map_timestamp 20 ∧
      (TimelineManager.mk 60 [TimeInterval.mk 10 20]).map_timestamp 10 =
        10 - removed_before 10
          (TimelineManager.mk 60 [TimeInterval.mk 10 20])._merge_overlapping_cuts :=
  C10_boundaries_map_equal (TimelineManager.mk 60 [TimeInterval.mk 10 20])
    (TimeInterval.mk 10 20) (by decide) (by decide)

/-! ### Pipeline trace lemmas -/

theorem precedes_of_no_q (p q : StageEvent → Prop) (tr : List StageEvent)
    (h : ∀ e ∈ tr, ¬ q e) : Precedes p q tr := by
  intro i j hi hj _ hq
  refine absurd hq (h _ ?_)
  rw [List.get_eq_getElem]
  exact List.getElem_mem hj

theorem precedes_of_no_p (p q : StageEvent → Prop) (tr : List StageEvent)
    (h : ∀ e ∈ tr, ¬ p e) : Precedes p q tr := by
  intro i j hi hj hp _
  refine absurd hp (h _ ?_)
  rw [List.get_eq_getElem]
  exact List.getElem_mem hi

theorem precedes_append (p q : StageEvent → Prop) (l1 l2 : List StageEvent)
    (hp : ∀ e ∈ l2, ¬ p e) (hq : ∀ e ∈ l1, ¬ q e) :
    Precedes p q (l1 ++ l2) := by
  intro i j hi hj hpi hqj
  by_cases hil : i < l1.length
  · by_cases hjl : j < l1.length
    · exfalso
      have hgl : (l1 ++ l2).get ⟨j, hj⟩ = l1.get ⟨j, hjl⟩ := by
        rw [List.get_eq_getElem, List.get_eq_getElem]
        exact List.getElem_append_left hjl
      refine hq (l1.get ⟨j, hjl⟩) ?_ (hgl ▸ hqj)
      rw [List.get_eq_getElem]
      exact List.getElem_mem hjl
    · omega
  · exfalso
    have hge : l1.length ≤ i := le_of_not_lt hil
    have hlt : i - l1.length < l2.length := by
      have := hi
      simp only [List.length_append] at this
      omega
    have hgl : (l1 ++ l2).get ⟨i, hi⟩ = l2.get ⟨i - l1.length, hlt⟩ := by
      rw [List.get_eq_getElem, List.get_eq_getElem]
      exact List.getElem_append_right hge
    refine hp (l2.get ⟨i - l1.length, hlt⟩) ?_ (hgl ▸ hpi)
    rw [List.get_eq_getElem]
    exact List.getElem_mem hlt

theorem mem_if_singleton (c : Prop) [Decidable c] (x e : StageEvent)
    (h : e ∈ if c then [x] else ([] : List StageEvent)) : e = x := by
  by_cases hc : c
  · simpa [hc] using h
  · simp [hc] at h

theorem mem_head_events {α : Type} (plan : EditPlan α) (e : StageEvent)
    (he : e ∈ head_events plan) :
    e = StageEvent.audio_normalize ∨ e = StageEvent.dynamic_audio := by
  rcases List.mem_cons.mp he with h | h
  · exact Or.inl h
  · exact Or.inr (mem_if_singleton _ _ _ h)

theorem mem_tail_events {α : Type} (plan : EditPlan α) (subs : List (Subtitle α))
    (e : StageEvent) (he : e ∈ tail_events plan subs) :
    e = StageEvent.highlight_effects ∨ e = StageEvent.apply_transitions ∨
      e = StageEvent.color_grade ∨ e = StageEvent.aspect_conversion ∨
      e = StageEvent.add_subtitles ∨ e = StageEvent.finalize := by
  unfold tail_events at he
  rcases List.mem_append.mp he with h | h
  · rcases List.mem_append.mp h with h | h
    · rcases List.mem_append.mp h with h | h
      · rcases List.mem_append.mp h with h | h
        · exact Or.inl (mem_if_singleton _ _ _ h)
        · exact Or.inr (Or.inl (mem_if_singleton _ _ _ h))
      · rcases List.mem_cons.mp h with h | h
        · exact Or.inr (Or.inr (Or.inl h))
        · exact Or.inr (Or.inr (Or.inr (Or.inl (by simpa using h))))
    · exact Or.inr (Or.inr (Or.inr (Or.inr (Or.inl (mem_if_singleton _ _ _ h)))))
  · exact Or.inr (Or.inr (Or.inr (Or.inr (Or.inr (by simpa using h)))))

theorem mem_register_cuts_events (cuts : List (ℚ × ℚ)) :
    ∀ tm, ∀ e ∈ (register_cuts tm cuts).2,
      ∃ s t ok, e = StageEvent.register_cut s t ok := by
  induction cuts with
  | nil => intro tm e he; simp [register_cuts] at he
  | cons c rest ih =>
    intro tm e he
    simp only [register_cuts] at he
    rcases List.mem_cons.mp he with rfl | he
    · exact ⟨c.1, c.2, _, rfl⟩
    · exact ih _ e he

theorem register_cuts_complete (cuts : List (ℚ × ℚ)) :
    ∀ tm, ∀ c ∈ cuts, ∃ ok,
      StageEvent.register_cut c.1 c.2 ok ∈ (register_cuts tm cuts).2 := by
  induction cuts with
  | nil => intro tm c hc; simp at hc
  | cons d rest ih =>
    intro tm c hc
    rcases List.mem_cons.mp hc with rfl | hc
    · exact ⟨(tm.add_cut c.1 c.2).2.isNone, by
        simp only [register_cuts]
        exact List.mem_cons_self _ _⟩
    · rcases ih (tm.add_cut d.1 d.2).1 c hc with ⟨ok, hok⟩
      exact ⟨ok, by
        simp only [register_cuts]
        exact List.mem_cons_of_mem _ hok⟩

theorem tail_events_no_resync {α : Type} (plan : EditPlan α)
    (subs : List (Subtitle α)) :
    ∀ e ∈ tail_events plan subs, ¬ e = StageEvent.resync := by
  intro e he
  rcases mem_tail_events plan subs e he with h | h | h | h | h | h <;> subst h <;> simp

theorem tail_events_no_reg_jump {α : Type} (plan : EditPlan α)
    (subs : List (Subtitle α)) :
    ∀ e ∈ tail_events plan subs, ¬ is_register_or_jump e := by
  intro e he hp
  rcases mem_tail_events plan subs e he with h | h | h | h | h | h <;> subst h <;>
    rcases hp with ⟨s, t, ok, h⟩ | h <;> simp at h

theorem head_events_no_resync {α : Type} (plan : EditPlan α) :
    ∀ e ∈ head_events plan, ¬ e = StageEvent.resync := by
  intro e he
  rcases mem_head_events plan e he with h | h <;> subst h <;> simp

theorem head_events_no_burn {α : Type} (plan : EditPlan α) :
    ∀ e ∈ head_events plan, ¬ e = StageEvent.add_subtitles := by
  intro e he
  rcases mem_head_events plan e he with h | h <;> subst h <;> simp

theorem register_events_not (cuts : List (ℚ × ℚ)) (tm : TimelineManager)
    (x : StageEvent) (hx : ∀ s t ok, x ≠ StageEvent.register_cut s t ok) :
    ∀ e ∈ (register_cuts tm cuts).2, ¬ e = x := by
  intro e he hex
  rcases mem_register_cuts_events cuts tm e he with ⟨s, t, ok, rfl⟩
  exact hx s t ok hex.symm

theorem precedes_aspect_burn {α : Type} (P : List StageEvent)
    (hP : ∀ e ∈ P, ¬ e = StageEvent.add_subtitles)
    (plan : EditPlan α) (subs : List (Subtitle α)) :
    Precedes (· = StageEvent.aspect_conversion) (· = StageEvent.add_subtitles)
      (P ++ tail_events plan subs) := by
  have hsplit : P ++ tail_events plan subs =
      (P ++ ((if plan.highlights ≠ [] then [StageEvent.highlight_effects] else [])
          ++ (if plan.transitions ≠ [] then [StageEvent.apply_transitions] else [])
          ++ [StageEvent.color_grade, StageEvent.aspect_conversion]))
        ++ ((if subs.isEmpty = false then [StageEvent.add_subtitles] else [])
          ++ [StageEvent.finalize]) := by
    simp [tail_events, List.append_assoc]
  rw [hsplit]
  apply precedes_append
  · intro e he hpe
    rcases List.mem_append.mp he with h | h
    · have := mem_if_singleton _ _ _ h
      subst this; simp at hpe
    · have : e = StageEvent.finalize := by simpa using h
      subst this; simp at hpe
  · intro e he hqe
    rcases List.mem_append.mp he with h | h
    · exact hP e h hqe
    · rcases List.mem_append.mp h with h | h
      · rcases List.mem_append.mp h with h | h
        · have h2 := mem_if_singleton _ _ _ h
          subst h2; simp at hqe
        · have h2 := mem_if_singleton _ _ _ h
          subst h2; simp at hqe
      · rcases List.mem_cons.mp h with h | h
        · subst h; simp at hqe
        · have he2 : e = StageEvent.aspect_conversion := by simpa using h
          subst he2; simp at hqe

/-- C8: in every execution of the pipeline, every cut-registration event and
the jump-cuts stage precede annotation resync; resync precedes subtitle
burn-in; aspect-ratio conversion precedes subtitle burn-in; when cuts are
present every plan cut gets a registration event, and the resync output is
computed with the fully registered timeline manager (so resync is never
performed before cut registration). -/
theorem C8_stage_order {α : Type} (D : ℚ) (plan : EditPlan α) :
    Precedes is_register_or_jump (· = StageEvent.resync)
        (ProcessingPipeline.execute D plan).1 ∧
      Precedes (· = StageEvent.resync) (· = StageEvent.add_subtitles)
        (ProcessingPipeline.execute D plan).1 ∧
      Precedes (· = StageEvent.aspect_conversion) (· = StageEvent.add_subtitles)
        (ProcessingPipeline.execute D plan).1 ∧
      (plan.cuts ≠ [] → ∀ c ∈ plan.cuts, ∃ ok,
        StageEvent.register_cut c.1 c.2 ok ∈ (ProcessingPipeline.execute D plan).1) ∧
      (plan.cuts ≠ [] → plan.subtitles.isEmpty = false →
        (ProcessingPipeline.execute D plan).2.1 =
            (register_cuts (TimelineManager.mk D []) plan.cuts).1 ∧
          (ProcessingPipeline.execute D plan).2.2 =
            clamp_subtitles (adjust_subtitle_timestamps plan.subtitles
              (register_cuts (TimelineManager.mk D []) plan.cuts).1)) := by
  by_cases hc : plan.cuts ≠ []
  · by_cases hs : plan.subtitles.isEmpty = false
    · have hexec : ProcessingPipeline.execute D plan =
          (head_events plan ++ (register_cuts (TimelineManager.mk D []) plan.cuts).2
              ++ [StageEvent.jump_cuts, StageEvent.resync]
              ++ tail_events plan (clamp_subtitles (adjust_subtitle_timestamps
                plan.subtitles (register_cuts (TimelineManager.mk D []) plan.cuts).1)),
            (register_cuts (TimelineManager.mk D []) plan.cuts).1,
            clamp_subtitles (adjust_subtitle_timestamps plan.subtitles
              (register_cuts (TimelineManager.mk D []) plan.cuts).1)) := by
        simp [ProcessingPipeline.execute, hc, hs]
      rw [hexec]
      have hP : ∀ e ∈ (head_events plan ++
          (register_cuts (TimelineManager.mk D []) plan.cuts).2)
            ++ [StageEvent.jump_cuts, StageEvent.resync],
          ¬ e = StageEvent.add_subtitles := by
        intro e he
        rcases List.mem_append.mp he with h | h
        · rcases List.mem_append.mp h with h | h
          · exact head_events_no_burn plan e h
          · exact register_events_not _ _ _ (by intro s t ok hx; simp at hx) e h
        · rcases List.mem_cons.mp h with h | h
          · subst h; simp
          · have h2 : e = StageEvent.resync := by simpa using h
            subst h2; simp
      refine ⟨?_, ?_, ?_, ?_, fun _ _ => ⟨rfl, rfl⟩⟩
      · have hsp : (head_events plan ++
            (register_cuts (TimelineManager.mk D []) plan.cuts).2
              ++ [StageEvent.jump_cuts, StageEvent.resync]
              ++ tail_events plan (clamp_subtitles (adjust_subtitle_timestamps
                plan.subtitles (register_cuts (TimelineManager.mk D []) plan.cuts).1)))
            = (head_events plan ++
                (register_cuts (TimelineManager.mk D []) plan.cuts).2
                ++ [StageEvent.jump_cuts])
              ++ (StageEvent.resync ::
                tail_events plan (clamp_subtitles (adjust_subtitle_timestamps
                  plan.subtitles (register_cuts (TimelineManager.mk D []) plan.cuts).1))) := by
          simp
        rw [hsp]
        apply precedes_append
        · intro e he hpe
          rcases List.mem_cons.mp he with h | h
          · subst h
            rcases hpe with ⟨s, t, ok, h⟩ | h <;> simp at h
          · exact tail_events_no_reg_jump plan _ e h hpe
        · intro e he
          rcases List.mem_append.mp he with h | h
          · rcases List.mem_append.mp h with h | h
            · exact head_events_no_resync plan e h
            · exact register_events_not _ _ _ (by intro s t ok hx; simp at hx) e h
          · have h2 : e = StageEvent.jump_cuts := by simpa using h
            subst h2; simp
      · apply precedes_append
        · intro e he
          exact fun hpe => tail_events_no_resync plan _ e he hpe
        · exact hP
      · exact precedes_aspect_burn _ hP plan _
      · intro _ c hcc
        rcases register_cuts_complete plan.cuts (TimelineManager.mk D []) c hcc with ⟨ok, hok⟩
        refine ⟨ok, ?_⟩
        refine List.mem_append_left _ ?_
        refine List.mem_append_left _ ?_
        exact List.mem_append_right _ hok
    · have hs2 : plan.subtitles.isEmpty = true := by simpa using hs
      have hexec : ProcessingPipeline.execute D plan =
          (head_events plan ++ (register_cuts (TimelineManager.mk D []) plan.cuts).2
              ++ [StageEvent.jump_cuts] ++ tail_events plan plan.subtitles,
            (register_cuts (TimelineManager.mk D []) plan.cuts).1,
            plan.subtitles) := by
        simp [ProcessingPipeline.execute, hc, hs2]
      rw [hexec]
      have hnores : ∀ e ∈ head_events plan ++
          (register_cuts (TimelineManager.mk D []) plan.cuts).2
            ++ [StageEvent.jump_cuts] ++ tail_events plan plan.subtitles,
          ¬ e = StageEvent.resync := by
        intro e he
        rcases List.mem_append.mp he with h | h
        · rcases List.mem_append.mp h with h | h
          · rcases List.mem_append.mp h with h | h
            · exact head_events_no_resync plan e h
            · exact register_events_not _ _ _ (by intro s t ok hx; simp at hx) e h
          · have h2 : e = StageEvent.jump_cuts := by simpa using h
            subst h2; simp
        · exact tail_events_no_resync plan _ e h
      refine ⟨?_, ?_, ?_, ?_, fun _ hss => by rw [hs2] at hss; simp at hss⟩
      · exact precedes_of_no_q _ _ _ hnores
      · exact precedes_of_no_p _ _ _ hnores
      · have hP2 : ∀ e ∈ head_events plan ++
            (register_cuts (TimelineManager.mk D []) plan.cuts).2
              ++ [StageEvent.jump_cuts],
            ¬ e = StageEvent.add_subtitles := by
          intro e he
          rcases List.mem_append.mp he with h | h
          · rcases List.mem_append.mp h with h | h
            · exact head_events_no_burn plan e h
            · exact register_events_not _ _ _ (by intro s t ok hx; simp at hx) e h
          · have h2 : e = StageEvent.jump_cuts := by simpa using h
            subst h2; simp
        exact precedes_aspect_burn _ hP2 plan _
      · intro _ c hcc
        rcases register_cuts_complete plan.cuts (TimelineManager.mk D []) c hcc with ⟨ok, hok⟩
        refine ⟨ok, ?_⟩
        refine List.mem_append_left _ ?_
        refine List.mem_append_left _ ?_
        exact List.mem_append_right _ hok
  · have hc2 : plan.cuts = [] := not_ne_iff.mp hc
    have hexec : ProcessingPipeline.execute D plan =
        (head_events plan ++ tail_events plan plan.subtitles,
          TimelineManager.mk D [], plan.subtitles) := by
      simp [ProcessingPipeline.execute, hc2]
    rw [hexec]
    have hnores : ∀ e ∈ head_events plan ++ tail_events plan plan.subtitles,
        ¬ e = StageEvent.resync := by
      intro e he
      rcases List.mem_append.mp he with h | h
      · exact head_events_no_resync plan e h
      · exact tail_events_no_resync plan _ e h
    refine ⟨?_, ?_, ?_, fun hcc => absurd hc2 hcc, fun hcc => absurd hc2 hcc⟩
    · exact precedes_of_no_q _ _ _ hnores
    · exact precedes_of_no_p _ _ _ hnores
    · exact precedes_aspect_burn _ (head_events_no_burn plan) plan _

theorem C8_stage_order_witness :
    Precedes is_register_or_jump (· = StageEvent.resync)
        (ProcessingPipeline.execute 60
          (EditPlan.mk [((10 : ℚ), (20 : ℚ))] [Subtitle.mk 5 8 ()] [] [] [])).1 ∧
      Precedes (· = StageEvent.resync) (· = StageEvent.add_subtitles)
        (ProcessingPipeline.execute 60
          (EditPlan.mk [((10 : ℚ), (20 : ℚ))] [Subtitle.mk 5 8 ()] [] [] [])).1 ∧
      ∃ ok, StageEvent.register_cut 10 20 ok ∈
        (ProcessingPipeline.execute 60
          (EditPlan.mk [((10 : ℚ), (20 : ℚ))] [Subtitle.mk 5 8 ()] [] [] [])).1 :=
  ⟨(C8_stage_order 60 (EditPlan.mk [((10 : ℚ), (20 : ℚ))] [Subtitle.mk 5 8 ()] [] [] [])).1,
    (C8_stage_order 60 (EditPlan.mk [((10 : ℚ), (20 : ℚ))] [Subtitle.mk 5 8 ()] [] [] [])).2.1,
    (C8_stage_order 60
        (EditPlan.mk [((10 : ℚ), (20 : ℚ))] [Subtitle.mk 5 8 ()] [] [] [])).2.2.2.1
      (by simp) ((10 : ℚ), (20 : ℚ)) (by simp)⟩
